import Mathlib

/-!
Verification of the IRC-style chat engine (`chat.py`).

Bytes are modelled as lists of natural numbers (one per byte).  Python
`str` values travel through the codec as their UTF-8 byte sequences, so
in-memory strings are modelled as byte lists as well; `s2b` converts a
Lean string literal to its UTF-8 bytes.
-/

abbrev Bytes := List Nat

/-- UTF-8 encoding of a Unicode code point. -/
def utf8Bytes (n : Nat) : Bytes :=
  if n < 128 then [n]
  else if n < 2048 then [192 + n / 64, 128 + n % 64]
  else if n < 65536 then [224 + n / 4096, 128 + (n / 64) % 64, 128 + n % 64]
  else [240 + n / 262144, 128 + (n / 4096) % 64, 128 + (n / 64) % 64, 128 + n % 64]

/-- UTF-8 bytes of a string (Python `str.encode()`). -/
def s2b (s : String) : Bytes :=
  s.data.foldr (fun c r => utf8Bytes c.toNat ++ r) []

/-!
## Wire codec

`_split_irc_command` and `_make_irc_command` from `chat.py`.

The decoder's token scan (`while idx < len(command)-1: ...`) is embedded
as `parseParts`, a recursion over the unscanned suffix of the line; the
accumulator plays the role of the Python `parts` list.  A Python
`return False` becomes `none`; an uncaught exception in the server
loop is modelled separately (see `StepResult.err`).
-/

/-- The token-scanning loop of `_split_irc_command`: `rest` is the part of
the line not yet scanned (starting just after the last consumed space) and
`parts` the accumulated tokens.  A leading `':'` (58) consumes the rest of
the line as trailing parameter; a leading `' '` (32) is an empty token and
fails; otherwise one token runs up to the next space.  The `fuel` argument
only forces structural termination: every iteration consumes at least one
byte of `rest`, so any fuel larger than `rest.length` is enough (see
`parseParts_fuel`); the loop itself never exhausts it. -/
def parseParts : Nat → Bytes → List Bytes → Option (List Bytes)
  | 0, _, _ => none
  | _ + 1, [], parts => some parts
  | fuel + 1, b :: bs, parts =>
    if parts.length = 15 then none
    else if b = 58 then some (parts ++ [bs])
    else if b = 32 then none
    else
      let part := (b :: bs).takeWhile (fun x => x != 32)
      match (b :: bs).dropWhile (fun x => x != 32) with
      | [] => some (parts ++ [part])
      | _ :: r => parseParts fuel r (parts ++ [part])

/-- `_split_irc_command`: decode a raw byte buffer into
(optional prefix, command, params), or `none` for "not a frame". -/
def split_irc_command (command : Bytes) : Option (Option Bytes × Bytes × List Bytes) :=
  if command.length < 3 ∨ 512 < command.length ∨
     command.drop (command.length - 2) ≠ [13, 10] then none
  else
    match command.take (command.length - 2) with
    | [] => none
    | b :: bs =>
      let pr : Option Bytes × Bytes :=
        if b = 58 then
          if 32 ∈ bs then
            (some (bs.takeWhile (fun x => x != 32)),
             (bs.dropWhile (fun x => x != 32)).tail)
          else
            (some bs.dropLast, b :: bs)
        else (none, b :: bs)
      match parseParts (pr.2.length + 1) pr.2 [] with
      | some (cmd :: args) => some (pr.1, cmd, args)
      | _ => none

/-- The argument serialization loop of `_make_irc_command`: each truthy
(non-empty) argument is preceded by one space; the positionally-last
argument additionally gets a leading `':'` when it contains a space. -/
def encodeArgs : List Bytes → Bytes
  | [] => []
  | [a] => if a = [] then [] else 32 :: ((if 32 ∈ a then [58] else []) ++ a)
  | a :: rest => (if a = [] then [] else 32 :: a) ++ encodeArgs rest

/-- `_make_irc_command`: serialize (command, args, optional prefix) to a
CRLF-terminated byte frame.  A `None` or empty prefix is omitted
(Python `if prefix:`). -/
def make_irc_command (cmd : Bytes) (args : List Bytes) (pre : Option Bytes) : Bytes :=
  (match pre with
   | some p => if p = [] then [] else 58 :: (p ++ [32])
   | none => []) ++ cmd ++ encodeArgs args ++ [13, 10]

/-!
## Server model

`IRCUser`, `IRCChannel` and `IRCServer` from `chat.py`, embedded as
explicit state.  Sessions are identified by a `SessionId`; the Python
dictionaries become insertion-ordered association lists (`insertA`
updates in place like dict assignment, appends for a new key).

Python exceptions that escape `_handle_user` (and are swallowed by
`handle_user`, ending that connection's loop) are modelled by
`StepResult.err`: the state mutations and sends performed before the
raise are kept, nothing after it happens.  This matters because the
source calls the nonexistent methods `self._quit` and `self._part`
(`AttributeError`), and `self._users` maps a username to the username
string itself, so `self._users[target].send(...)` is an
`AttributeError` on `str`.
-/

abbrev SessionId := Nat

def lookupA [DecidableEq κ] (k : κ) : List (κ × α) → Option α
  | [] => none
  | (k', v) :: t => if k' = k then some v else lookupA k t

def insertA [DecidableEq κ] (k : κ) (v : α) : List (κ × α) → List (κ × α)
  | [] => [(k, v)]
  | (k', v') :: t => if k' = k then (k, v) :: t else (k', v') :: insertA k v t

def eraseA [DecidableEq κ] (k : κ) : List (κ × α) → List (κ × α)
  | [] => []
  | (k', v') :: t => if k' = k then t else (k', v') :: eraseA k t

def memA [DecidableEq κ] (k : κ) (l : List (κ × α)) : Bool :=
  (lookupA k l).isSome

/-- The `Reply` enumeration of `chat.py`. -/
inductive Reply where
  | WELCOME | ALREADYREGISTRED | NEEDMOREPARAMS | LIST | LISTEND
  | NOSUCHNICK | NOTOPIC | NAMREPLY | ENDOFNAMES
deriving DecidableEq

/-- `str(t[0])`: the numeric code of a reply (WELCOME stores the string
`'001'`, the others store ints). -/
def Reply.code : Reply → Bytes
  | .WELCOME => s2b "001"
  | .ALREADYREGISTRED => s2b "462"
  | .NEEDMOREPARAMS => s2b "461"
  | .LIST => s2b "322"
  | .LISTEND => s2b "323"
  | .NOSUCHNICK => s2b "401"
  | .NOTOPIC => s2b "331"
  | .NAMREPLY => s2b "353"
  | .ENDOFNAMES => s2b "366"

/-- `t[1]`: the fixed default text of a reply. -/
def Reply.text : Reply → Bytes
  | .WELCOME => s2b "oi oi!"
  | .ALREADYREGISTRED => s2b "Comando não autorizado (já registrado)"
  | .NEEDMOREPARAMS => s2b "Faltam parâmetros"
  | .LIST => []
  | .LISTEND => s2b "Fim de LIST"
  | .NOSUCHNICK => s2b "Canal/nick inexistente"
  | .NOTOPIC => s2b "Sem tópico"
  | .NAMREPLY => []
  | .ENDOFNAMES => s2b "Fim da lista de NAMES"

/-- Per-session state of `IRCUser` (the stream reader/writer live outside
the model; `send` becomes an `Output`). -/
structure IRCUserSt where
  registered : Bool
  nick : Option Bytes
  username : Option Bytes
  realname : Option Bytes
  mode : Int
  address : Bytes
  server : Bytes
deriving DecidableEq

/-- `IRCUser.__init__`: fresh session state for a new connection. -/
def initUser (address : Bytes) : IRCUserSt :=
  { registered := false, nick := none, username := none, realname := none,
    mode := 0, address := address, server := s2b "127.0.0.1" }

/-- Python rendering of an optional string inside an f-string
(`None` prints as `"None"`). -/
def pyStr (o : Option Bytes) : Bytes :=
  match o with
  | none => s2b "None"
  | some b => b

/-- `IRCUser.prefix`: `f'{nick}!{username}@{address}'`. -/
def hostmask (u : IRCUserSt) : Bytes :=
  pyStr u.nick ++ [33] ++ pyStr u.username ++ [64] ++ u.address

/-- `IRCUser.reply`: build the numeric reply frame (all server call sites
use the default prefix mode `'server'`, resolved to `u.server`). -/
def replyFrame (u : IRCUserSt) (r : Reply) (args : List Bytes) : Bytes :=
  make_irc_command r.code (args ++ [r.text]) (some u.server)

/-- `IRCChannel`: member set (as an insertion-ordered duplicate-free
list of session ids) and topic. -/
structure IRCChannelSt where
  users : List SessionId
  topic : Bytes
deriving DecidableEq

/-- `IRCChannel.__init__`. -/
def initChannel : IRCChannelSt := { users := [], topic := [] }

/-- `IRCServer` state: channel/nick/user directories and the sessions. -/
structure IRCServerSt where
  channels : List (Bytes × IRCChannelSt)
  nicks : List (Bytes × SessionId)
  users : List (Bytes × Bytes)
  sessions : List (SessionId × IRCUserSt)
deriving DecidableEq

/-- `IRCServer.__init__`. -/
def initServer : IRCServerSt :=
  { channels := [], nicks := [], users := [], sessions := [] }

/-- A side effect of one command: `user.send(frame)` on some session. -/
inductive Output where
  | send (sid : SessionId) (frame : Bytes)
deriving DecidableEq

/-- Result of processing one frame: `ok` for a normal return to the read
loop, `err` for an uncaught Python exception (`handle_user` catches it,
prints the traceback and ends that connection's loop).  Both carry the
state reached and the sends performed before returning/raising. -/
inductive StepResult where
  | ok (st : IRCServerSt) (out : List Output)
  | err (st : IRCServerSt) (out : List Output)
deriving DecidableEq

def StepResult.state : StepResult → IRCServerSt
  | .ok st _ => st
  | .err st _ => st

def StepResult.outs : StepResult → List Output
  | .ok _ out => out
  | .err _ out => out

/-- `IRCChannel.broadcast`: one send per member except `exclude`
(`u is not exclude`).  The concurrency and the 1-second `asyncio.wait`
timeout are not modelled; only the set of issued sends is. -/
def broadcastOut (ch : IRCChannelSt) (frame : Bytes) (exclude : Option SessionId) :
    List Output :=
  (match exclude with
   | none => ch.users
   | some e => ch.users.filter (fun s => s != e)).map (fun s => Output.send s frame)

/-- `channel._users.add(user)`: set insertion. -/
def chAddUser (ch : IRCChannelSt) (sid : SessionId) : IRCChannelSt :=
  if sid ∈ ch.users then ch else { ch with users := ch.users ++ [sid] }

/-- `IRCServer._join` for a single channel name. -/
def joinStep (st : IRCServerSt) (sid : SessionId) (u : IRCUserSt) (chname : Bytes) :
    IRCServerSt × List Output :=
  let channels0 :=
    if memA chname st.channels then st.channels else insertA chname initChannel st.channels
  let ch' := chAddUser ((lookupA chname channels0).getD initChannel) sid
  ({ st with channels := insertA chname ch' channels0 },
   broadcastOut ch' (make_irc_command (s2b "JOIN") [chname] (some (hostmask u))) none
     ++ [.send sid (replyFrame u .NOTOPIC [chname]), .send sid (replyFrame u .NAMREPLY [])])

/-- `for channel in parts[0].split(','): await self._join(user, channel)`. -/
def joinAll : IRCServerSt → SessionId → IRCUserSt → List Bytes → IRCServerSt × List Output
  | st, _, _, [] => (st, [])
  | st, sid, u, n :: ns =>
    let p := joinStep st sid u n
    let q := joinAll p.1 sid u ns
    (q.1, p.2 ++ q.2)

/-- `IRCServer._privmsg`.  An empty target raises `IndexError` on
`chname[0]`; a target found in the `self._users` directory raises
`AttributeError` because the stored value is the username string, not
the user object. -/
def privmsgStep (st : IRCServerSt) (sid : SessionId) (u : IRCUserSt)
    (target text : Bytes) : StepResult :=
  let frame := make_irc_command (s2b "PRIVMSG") [target, text] (some (hostmask u))
  match target with
  | [] => .err st []
  | h :: _ =>
    if h = 35 ∨ h = 38 ∨ h = 43 then
      match lookupA target st.channels with
      | none => .ok st [.send sid (replyFrame u .NOSUCHNICK [target])]
      | some ch => .ok st (broadcastOut ch frame (some sid))
    else
      if memA target st.users then .err st []
      else .ok st [.send sid (replyFrame u .NOSUCHNICK [target])]

/-- Python `int()` applied to a byte string: optional sign then digits,
`none` for `ValueError` (the caller ignores the failure). -/
def parseInt (s : Bytes) : Option Int :=
  let digitsVal : Bytes → Nat := fun ds => ds.foldl (fun acc d => acc * 10 + (d - 48)) 0
  let isDigits : Bytes → Bool := fun ds =>
    ds ≠ [] && ds.all (fun d => 48 ≤ d && d ≤ 57)
  match s with
  | 43 :: ds => if isDigits ds then some (digitsVal ds : Int) else none
  | 45 :: ds => if isDigits ds then some (-(digitsVal ds : Int)) else none
  | ds => if isDigits ds then some (digitsVal ds : Int) else none

/-- `cmd.upper()` on ASCII bytes. -/
def asciiUpper (b : Bytes) : Bytes :=
  b.map (fun x => if 97 ≤ x ∧ x ≤ 122 then x - 32 else x)

/-- Python truthiness of an optional string (`if prefix:`). -/
def pyTruthy (o : Option Bytes) : Bool :=
  match o with
  | some p => !p.isEmpty
  | none => false

/-- The command dispatch of `IRCServer._handle_user` for one decoded
frame `(pre, cmd, parts)` arriving on session `sid`.  A frame carrying a
truthy (non-empty) prefix is skipped (`if prefix: continue`). -/
def handle_command (st : IRCServerSt) (sid : SessionId) (pre : Option Bytes)
    (cmd : Bytes) (parts : List Bytes) : StepResult :=
  match lookupA sid st.sessions with
  | none => .ok st []
  | some u =>
    if pyTruthy pre then .ok st []
    else
      let c := asciiUpper cmd
      if c = s2b "NICK" then
        match parts with
        | [] => .err st []
        | p0 :: _ =>
          let nicks1 :=
            match u.nick with
            | some n => if memA n st.nicks then eraseA n st.nicks else st.nicks
            | none => st.nicks
          .ok { st with nicks := insertA p0 sid nicks1,
                        sessions := insertA sid { u with nick := some p0 } st.sessions } []
      else if c = s2b "USER" then
        if u.registered then .ok st [.send sid (replyFrame u .ALREADYREGISTRED [])]
        else if parts.length < 4 then
          .ok st [.send sid (replyFrame u .NEEDMOREPARAMS [s2b "USER"])]
        else
          match parts with
          | p0 :: p1 :: _ :: p3 :: _ =>
            let u' := { u with username := some p0, mode := (parseInt p1).getD u.mode,
                               realname := some p3, registered := true }
            .ok { st with users := insertA p0 p0 st.users,
                          sessions := insertA sid u' st.sessions }
               [.send sid (replyFrame u' .WELCOME [p0])]
          | _ => .ok st []
      else if c = s2b "QUIT" then
        .err st []
      else if c = s2b "JOIN" then
        match parts with
        | [] => .ok st [.send sid (replyFrame u .NEEDMOREPARAMS [s2b "JOIN"])]
        | p0 :: _ =>
          if p0 = s2b "0" then
            if st.channels = [] then .ok st [] else .err st []
          else
            let r := joinAll st sid u (p0.splitOn 44)
            .ok r.1 r.2
      else if c = s2b "PART" then
        match parts with
        | [] => .ok st [.send sid (replyFrame u .NEEDMOREPARAMS [s2b "PART"])]
        | _ :: _ => .err st []
      else if c = s2b "LIST" then
        let names := match parts with
          | [] => st.channels.map Prod.fst
          | p0 :: _ => p0.splitOn 44
        let outs := names.filterMap (fun n =>
          (lookupA n st.channels).map (fun ch : IRCChannelSt =>
            Output.send sid (replyFrame u .LIST [n, s2b (toString ch.users.length), ch.topic])))
        .ok st (outs ++ [.send sid (replyFrame u .LISTEND [])])
      else if c = s2b "PRIVMSG" then
        match parts with
        | p0 :: p1 :: _ => privmsgStep st sid u p0 p1
        | _ => .ok st [.send sid (replyFrame u .NEEDMOREPARAMS [s2b "PRIVMSG"])]
      else .ok st []

/-- One connection-level event: a new connection being accepted
(`IRCServer.run`'s `connect`) or one decoded frame being processed. -/
inductive ServerEvent where
  | connect (sid : SessionId) (address : Bytes)
  | frame (sid : SessionId) (pre : Option Bytes) (cmd : Bytes) (parts : List Bytes)

def stepEvent (st : IRCServerSt) : ServerEvent → IRCServerSt
  | .connect sid address => { st with sessions := insertA sid (initUser address) st.sessions }
  | .frame sid pre cmd parts => (handle_command st sid pre cmd parts).state

def runServer (evs : List ServerEvent) : IRCServerSt :=
  evs.foldl stepEvent initServer

/-!
## Client adapter
-/

/-- `IRCClient._wait_login`: the frames sent, in order, once the
nick-chosen gate is set. -/
def wait_login_sends (nick channel : Bytes) : List Bytes :=
  [make_irc_command (s2b "NICK") [nick] none,
   make_irc_command (s2b "USER") [nick, s2b "0", s2b "*", nick] none,
   make_irc_command (s2b "JOIN") [channel] none]

/-!
## Specification-side encoder variants (for claim C5)

`claimArgs` transcribes the claimed serialization policy: the **last
non-empty** argument gets a leading `':'` exactly when it contains a
space.  `amendedArgs` transcribes the amended policy: the
**positionally last** argument, when non-empty, gets the `':'` exactly
when it contains a space.
-/

def claimArgs : List Bytes → Bytes
  | [] => []
  | a :: rest =>
    if a = [] then claimArgs rest
    else if rest.all (fun x => x.isEmpty) then
      32 :: ((if 32 ∈ a then [58] else []) ++ a) ++ claimArgs rest
    else
      32 :: a ++ claimArgs rest

/-- The serialized prefix portion (`if prefix:` in `_make_irc_command`). -/
def encPfx : Option Bytes → Bytes
  | some p => if p = [] then [] else 58 :: (p ++ [32])
  | none => []

/-- The encoder exactly as claim C5 states it. -/
def make_irc_command_claim (cmd : Bytes) (args : List Bytes) (pre : Option Bytes) : Bytes :=
  encPfx pre ++ cmd ++ claimArgs args ++ [13, 10]

def amendedArgs (args : List Bytes) : Bytes :=
  (args.dropLast.map (fun a => if a = [] then [] else 32 :: a)).flatten ++
  (match args.getLast? with
   | none => []
   | some a => if a = [] then [] else 32 :: ((if 32 ∈ a then [58] else []) ++ a))

/-- The encoder as the amended claim C5 states it. -/
def make_irc_command_amended (cmd : Bytes) (args : List Bytes) (pre : Option Bytes) : Bytes :=
  encPfx pre ++ cmd ++ amendedArgs args ++ [13, 10]

/-!
## Well-formedness of decoded frames (for claims C1 and C9)
-/

/-- A plain (non-trailing) token: non-empty, no space, no leading colon. -/
def plain (a : Bytes) : Prop := a ≠ [] ∧ 32 ∉ a ∧ a.head? ≠ some 58

/-- All elements except the last are plain tokens. -/
def plainInit : List Bytes → Prop
  | [] => True
  | [_] => True
  | a :: rest => plain a ∧ plainInit rest

/-- The serialized token list as it appears on the wire after the prefix:
tokens separated by single spaces, the last one colon-marked when it
contains a space.  For well-formed parts this equals
`cmd ++ encodeArgs args` (see `encodeArgsBody_eq`). -/
def encodeArgsBody : List Bytes → Bytes
  | [] => []
  | [a] => (if 32 ∈ a then [58] else []) ++ a
  | a :: rest => a ++ 32 :: encodeArgsBody rest

/-!
## Codec lemmas
-/

theorem takeWhile_no32 (a : Bytes) (h : 32 ∉ a) :
    a.takeWhile (fun x => x != 32) = a := by
  induction a with
  | nil => rfl
  | cons x xs ih =>
    have hx : x ≠ 32 := fun he => h (he ▸ List.mem_cons_self x xs)
    rw [List.takeWhile_cons_of_pos (by simpa using hx)]
    rw [ih (fun hm => h (List.mem_cons_of_mem x hm))]

theorem dropWhile_no32 (a : Bytes) (h : 32 ∉ a) :
    a.dropWhile (fun x => x != 32) = [] := by
  induction a with
  | nil => rfl
  | cons x xs ih =>
    have hx : x ≠ 32 := fun he => h (he ▸ List.mem_cons_self x xs)
    rw [List.dropWhile_cons_of_pos (by simpa using hx)]
    exact ih (fun hm => h (List.mem_cons_of_mem x hm))

theorem takeWhile_app32 (a r : Bytes) (h : 32 ∉ a) :
    (a ++ 32 :: r).takeWhile (fun x => x != 32) = a := by
  induction a with
  | nil => simp [List.takeWhile_cons]
  | cons x xs ih =>
    have hx : x ≠ 32 := fun he => h (he ▸ List.mem_cons_self x xs)
    rw [List.cons_append, List.takeWhile_cons_of_pos (by simpa using hx)]
    rw [ih (fun hm => h (List.mem_cons_of_mem x hm))]

theorem dropWhile_app32 (a r : Bytes) (h : 32 ∉ a) :
    (a ++ 32 :: r).dropWhile (fun x => x != 32) = 32 :: r := by
  induction a with
  | nil => simp [List.dropWhile_cons]
  | cons x xs ih =>
    have hx : x ≠ 32 := fun he => h (he ▸ List.mem_cons_self x xs)
    rw [List.cons_append, List.dropWhile_cons_of_pos (by simpa using hx)]
    exact ih (fun hm => h (List.mem_cons_of_mem x hm))

theorem mem_takeWhile_ne32 {a : Bytes} :
    32 ∉ a.takeWhile (fun x => x != 32) := by
  intro hm
  have := List.all_takeWhile (p := fun x => x != 32) (l := a)
  rw [List.all_eq_true] at this
  simpa using this 32 hm

/-- Any fuel above the length of the unscanned suffix gives the same
result: the loop consumes at least one byte per iteration. -/
theorem parseParts_fuel :
    ∀ (f : Nat) (g : Nat) (rest : Bytes) (parts : List Bytes),
      rest.length < f → rest.length < g →
      parseParts f rest parts = parseParts g rest parts := by
  intro f
  induction f with
  | zero => intro g rest parts hf; omega
  | succ f ih =>
    intro g rest parts hf hg
    match g with
    | 0 => omega
    | g + 1 =>
      match rest with
      | [] => rfl
      | b :: bs =>
        by_cases hp : parts.length = 15
        · simp [parseParts, hp]
        · by_cases h58 : b = 58
          · simp [parseParts, hp, h58]
          · by_cases h32 : b = 32
            · simp [parseParts, hp, h58, h32]
            · simp only [parseParts, hp, if_false, h58, h32, ite_false]
              cases hdw : (b :: bs).dropWhile (fun x => x != 32) with
              | nil => rfl
              | cons x r =>
                have hb : (b != 32) = true := by simpa using h32
                have h1 : b :: bs = (b :: bs).takeWhile (fun x => x != 32) ++
                    (x :: r) := by
                  rw [← hdw, List.takeWhile_append_dropWhile]
                rw [List.takeWhile_cons_of_pos (p := fun x => x != 32) (a := b)
                  (l := bs) hb] at h1
                have hlen := congrArg List.length h1
                simp only [List.length_cons, List.length_append] at hlen
                simp only [List.length_cons] at hf hg
                exact ih g r (parts ++ [(b :: bs).takeWhile (fun x => x != 32)])
                  (by omega) (by omega)

theorem plainInit_cons {a : Bytes} {l : List Bytes} (ha : plain a) (hl : plainInit l) :
    plainInit (a :: l) := by
  cases l with
  | nil => trivial
  | cons b t => exact ⟨ha, hl⟩

theorem plainInit_of_cons {a : Bytes} {l : List Bytes} (h : plainInit (a :: l)) :
    plainInit l := by
  cases l with
  | nil => trivial
  | cons b t => exact h.2

theorem plain_of_plainInit_cons {a : Bytes} {b : Bytes} {t : List Bytes}
    (h : plainInit (a :: b :: t)) : plain a := h.1

/-- Soundness of the token scan: every successful parse extends the
accumulator with tokens of which all but the last are plain. -/
theorem parseParts_sound :
    ∀ (f : Nat) (rest : Bytes) (acc parts : List Bytes),
      parseParts f rest acc = some parts →
      ∃ news, parts = acc ++ news ∧ plainInit news := by
  intro f
  induction f with
  | zero => intro rest acc parts h; simp [parseParts] at h
  | succ f ih =>
    intro rest acc parts h
    match rest with
    | [] =>
      simp only [parseParts, Option.some.injEq] at h
      exact ⟨[], by simp [h], trivial⟩
    | b :: bs =>
      by_cases hp : acc.length = 15
      · simp [parseParts, hp] at h
      · by_cases h58 : b = 58
        · simp only [parseParts, hp, if_false, h58, if_true, Option.some.injEq] at h
          exact ⟨[bs], by simp [h], trivial⟩
        · by_cases h32 : b = 32
          · simp [parseParts, hp, h58, h32] at h
          · simp only [parseParts, hp, if_false, h58, h32, ite_false] at h
            have hb : (b != 32) = true := by simpa using h32
            have hplain : plain ((b :: bs).takeWhile (fun x => x != 32)) := by
              rw [List.takeWhile_cons_of_pos (p := fun x => x != 32) (a := b)
                (l := bs) hb]
              refine ⟨by simp, ?_, by simpa using h58⟩
              intro hm
              rcases List.mem_cons.mp hm with h | h
              · exact h32 h.symm
              · exact mem_takeWhile_ne32 h
            cases hdw : (b :: bs).dropWhile (fun x => x != 32) with
            | nil =>
              rw [hdw] at h
              simp only [Option.some.injEq] at h
              exact ⟨[(b :: bs).takeWhile (fun x => x != 32)], by simp [h], trivial⟩
            | cons x r =>
              rw [hdw] at h
              obtain ⟨news', hparts, hpi⟩ := ih r _ parts h
              refine ⟨(b :: bs).takeWhile (fun x => x != 32) :: news', ?_, ?_⟩
              · simpa using hparts
              · exact plainInit_cons hplain hpi

/-- The scan caps the token count: a successful parse starting from at
most 15 accumulated parts returns at most 15 parts. -/
theorem parseParts_count :
    ∀ (f : Nat) (rest : Bytes) (acc parts : List Bytes),
      parseParts f rest acc = some parts → acc.length ≤ 15 → parts.length ≤ 15 := by
  intro f
  induction f with
  | zero => intro rest acc parts h; simp [parseParts] at h
  | succ f ih =>
    intro rest acc parts h hacc
    match rest with
    | [] =>
      simp only [parseParts, Option.some.injEq] at h
      exact h ▸ hacc
    | b :: bs =>
      by_cases hp : acc.length = 15
      · simp [parseParts, hp] at h
      · by_cases h58 : b = 58
        · simp only [parseParts, hp, if_false, h58, if_true, Option.some.injEq] at h
          subst h
          simp only [List.length_append, List.length_singleton]
          omega
        · by_cases h32 : b = 32
          · simp [parseParts, hp, h58, h32] at h
          · simp only [parseParts, hp, if_false, h58, h32, ite_false] at h
            cases hdw : (b :: bs).dropWhile (fun x => x != 32) with
            | nil =>
              rw [hdw] at h
              simp only [Option.some.injEq] at h
              subst h
              simp only [List.length_append, List.length_singleton]
              omega
            | cons x r =>
              rw [hdw] at h
              exact ih r _ parts h (by
                simp only [List.length_append, List.length_singleton]; omega)

/-- For a non-empty list of non-empty arguments, the encoder's argument
loop produces a space followed by the space-separated token body. -/
theorem encodeArgs_eq_body :
    ∀ (args : List Bytes), args ≠ [] → (∀ a ∈ args, a ≠ []) →
      encodeArgs args = 32 :: encodeArgsBody args := by
  intro args
  induction args with
  | nil => intro h; exact absurd rfl h
  | cons a rest ih =>
    intro _ hne
    cases rest with
    | nil =>
      have ha : a ≠ [] := hne a (List.mem_cons_self a [])
      simp [encodeArgs, encodeArgsBody, ha]
    | cons b t =>
      have ha : a ≠ [] := hne a (List.mem_cons_self a (b :: t))
      have : encodeArgs (a :: b :: t) =
          (if a = [] then [] else 32 :: a) ++ encodeArgs (b :: t) := rfl
      rw [this, ih (by simp) (fun x hx => hne x (List.mem_cons_of_mem a hx)),
        if_neg ha]
      rfl

/-- `cmd` followed by the encoded arguments is the token body of
`cmd :: args`, provided `cmd` has no space and the args are non-empty. -/
theorem make_body (c : Bytes) (args : List Bytes) (hc : 32 ∉ c)
    (hargs : ∀ a ∈ args, a ≠ []) :
    c ++ encodeArgs args = encodeArgsBody (c :: args) := by
  cases args with
  | nil => simp [encodeArgs, encodeArgsBody, hc]
  | cons b t =>
    rw [encodeArgs_eq_body (b :: t) (by simp) hargs]
    rfl

/-- One scan step: a trailing-colon token consumes the rest of the line. -/
theorem parseParts_trailing (f : Nat) (bs : Bytes) (acc : List Bytes)
    (hacc : acc.length ≠ 15) :
    parseParts (f + 1) (58 :: bs) acc = some (acc ++ [bs]) := by
  simp [parseParts, hacc]

/-- One scan step: a final plain token (no space follows it). -/
theorem parseParts_last_plain (f : Nat) (a : Bytes) (acc : List Bytes)
    (ha : a ≠ []) (h32 : 32 ∉ a) (h58 : a.head? ≠ some 58)
    (hacc : acc.length ≠ 15) :
    parseParts (f + 1) a acc = some (acc ++ [a]) := by
  match a, ha with
  | ah :: at', _ =>
    have hh32 : ah ≠ 32 := fun he => h32 (he ▸ List.mem_cons_self ah at')
    have hh58 : ah ≠ 58 := by simpa using h58
    have hdw : List.dropWhile (fun x => x != 32) (ah :: at') = [] :=
      dropWhile_no32 _ h32
    have htw : List.takeWhile (fun x => x != 32) (ah :: at') = ah :: at' :=
      takeWhile_no32 _ h32
    simp only [parseParts]
    rw [if_neg hacc, if_neg hh58, if_neg hh32, hdw, htw]

/-- One scan step: a plain token followed by a space. -/
theorem parseParts_step (f : Nat) (a r : Bytes) (acc : List Bytes)
    (ha : a ≠ []) (h32 : 32 ∉ a) (h58 : a.head? ≠ some 58)
    (hacc : acc.length ≠ 15) :
    parseParts (f + 1) (a ++ 32 :: r) acc = parseParts f r (acc ++ [a]) := by
  match a, ha with
  | ah :: at', _ =>
    have hh32 : ah ≠ 32 := fun he => h32 (he ▸ List.mem_cons_self ah at')
    have hh58 : ah ≠ 58 := by simpa using h58
    have hdw : List.dropWhile (fun x => x != 32) (ah :: (at' ++ 32 :: r)) =
        32 :: r := dropWhile_app32 (ah :: at') r h32
    have htw : List.takeWhile (fun x => x != 32) (ah :: (at' ++ 32 :: r)) =
        ah :: at' := takeWhile_app32 (ah :: at') r h32
    show parseParts (f + 1) (ah :: (at' ++ 32 :: r)) acc = _
    simp only [parseParts]
    rw [if_neg hacc, if_neg hh58, if_neg hh32, hdw, htw]

/-- Parsing the serialized token body of well-formed parts recovers
exactly those parts. -/
theorem parseParts_encodeBody :
    ∀ (parts acc : List Bytes) (f : Nat),
      (encodeArgsBody parts).length < f →
      parts ≠ [] →
      (∀ a ∈ parts, a ≠ []) →
      plainInit parts →
      (∀ l, parts.getLast? = some l → l.head? = some 58 → 32 ∈ l) →
      acc.length + parts.length ≤ 15 →
      parseParts f (encodeArgsBody parts) acc = some (acc ++ parts) := by
  intro parts
  induction parts with
  | nil => intro acc f _ h; exact absurd rfl h
  | cons a rest ih =>
    intro acc f hf _ hne hpi hlast hcount
    have ha : a ≠ [] := hne a (List.mem_cons_self a rest)
    have hal : 0 < a.length := List.length_pos.mpr ha
    cases rest with
    | nil =>
      simp only [List.length_cons, List.length_nil] at hcount
      by_cases hsp : 32 ∈ a
      · have hbody : encodeArgsBody [a] = 58 :: a := by
          simp [encodeArgsBody, hsp]
        rw [hbody] at hf ⊢
        cases f with
        | zero => omega
        | succ f => exact parseParts_trailing f a acc (by omega)
      · have hbody : encodeArgsBody [a] = a := by
          simp [encodeArgsBody, hsp]
        rw [hbody] at hf ⊢
        have h58 : a.head? ≠ some 58 := by
          intro he
          exact hsp (hlast a (List.getLast?_singleton a) he)
        cases f with
        | zero => omega
        | succ f => exact parseParts_last_plain f a acc ha hsp h58 (by omega)
    | cons b t =>
      have hplain : plain a := hpi.1
      have hbody : encodeArgsBody (a :: b :: t) =
          a ++ 32 :: encodeArgsBody (b :: t) := rfl
      rw [hbody] at hf ⊢
      simp only [List.length_append, List.length_cons] at hf
      simp only [List.length_cons] at hcount
      cases f with
      | zero => omega
      | succ f =>
        rw [parseParts_step f a _ acc ha hplain.2.1 hplain.2.2 (by omega)]
        rw [ih (acc ++ [a]) f
          (by omega)
          (List.cons_ne_nil b t)
          (fun x hx => hne x (List.mem_cons_of_mem a hx))
          (plainInit_of_cons hpi)
          (fun l hl => hlast l (by rw [List.getLast?_cons_cons]; exact hl))
          (by simp only [List.length_append, List.length_cons,
                List.length_nil]; omega)]
        simp

theorem encodeArgsBody_ne_nil (c : Bytes) (args : List Bytes) (hcne : c ≠ []) :
    encodeArgsBody (c :: args) ≠ [] := by
  cases args with
  | nil =>
    intro h
    rcases List.append_eq_nil.mp h with ⟨_, h2⟩
    exact hcne h2
  | cons b t =>
    intro h
    rcases List.append_eq_nil.mp h with ⟨_, h2⟩
    exact absurd h2 (by simp)

theorem encodeArgsBody_head? (c : Bytes) (args : List Bytes) (hc32 : 32 ∉ c)
    (hcne : c ≠ []) :
    (encodeArgsBody (c :: args)).head? = c.head? := by
  cases args with
  | nil => simp [encodeArgsBody, hc32]
  | cons b t =>
    match c, hcne with
    | ch :: ct, _ => rfl

/-- Re-encoding well-formed parts and decoding recovers them: the
core of the round-trip direction. -/
theorem split_make (c : Bytes) (args : List Bytes) (p : Option Bytes)
    (hp : ∀ pp, p = some pp → pp ≠ [] ∧ 32 ∉ pp)
    (hc : plain c)
    (hargs : ∀ a ∈ args, a ≠ [])
    (hinit : plainInit args)
    (hlast : ∀ l, args.getLast? = some l → l.head? = some 58 → 32 ∈ l)
    (hcount : args.length + 1 ≤ 15)
    (hlen : (make_irc_command c args p).length ≤ 512) :
    split_irc_command (make_irc_command c args p) = some (p, c, args) := by
  have hlastC : ∀ l, (c :: args).getLast? = some l → l.head? = some 58 → 32 ∈ l := by
    intro l hl h58
    cases args with
    | nil =>
      rw [List.getLast?_singleton] at hl
      cases hl
      exact absurd h58 hc.2.2
    | cons x xs =>
      rw [List.getLast?_cons_cons] at hl
      exact hlast l hl h58
  have hneC : ∀ a ∈ c :: args, a ≠ [] := by
    intro a hm
    rcases List.mem_cons.mp hm with h | h
    · exact h ▸ hc.1
    · exact hargs a h
  have hBne : encodeArgsBody (c :: args) ≠ [] := encodeArgsBody_ne_nil c args hc.1
  have hM : make_irc_command c args p =
      (encPfx p ++ encodeArgsBody (c :: args)) ++ [13, 10] := by
    rw [← make_body c args hc.2.1 hargs]
    cases p with
    | none => simp [make_irc_command, encPfx]
    | some pp => simp [make_irc_command, encPfx]
  rw [hM] at hlen ⊢
  have hL2 : (encPfx p ++ encodeArgsBody (c :: args)).length =
      ((encPfx p ++ encodeArgsBody (c :: args)) ++ [13, 10]).length - 2 := by
    simp only [List.length_append, List.length_cons, List.length_nil]
    omega
  have hParse : parseParts ((encodeArgsBody (c :: args)).length + 1)
      (encodeArgsBody (c :: args)) [] = some (c :: args) :=
    parseParts_encodeBody (c :: args) [] _ (by omega) (by simp) hneC
      (plainInit_cons hc hinit) hlastC
      (by simp only [List.length_nil, List.length_cons]; omega)
  have hBpos : 0 < (encodeArgsBody (c :: args)).length := List.length_pos.mpr hBne
  rw [split_irc_command]
  rw [if_neg (by
    push_neg
    refine ⟨?_, ?_, ?_⟩
    · simp only [List.length_append, List.length_cons, List.length_nil]
      omega
    · exact hlen
    · exact List.drop_left' hL2)]
  rw [List.take_left' hL2]
  cases p with
  | none =>
    have hE : encPfx (none : Option Bytes) ++ encodeArgsBody (c :: args) =
        encodeArgsBody (c :: args) := by simp [encPfx]
    rw [hE]
    cases hB : encodeArgsBody (c :: args) with
    | nil => exact absurd hB hBne
    | cons bh bt =>
      have hbh : bh ≠ 58 := by
        have := encodeArgsBody_head? c args hc.2.1 hc.1
        rw [hB] at this
        intro he
        exact hc.2.2 (by rw [← this, he]; rfl)
      simp only [if_neg hbh]
      rw [← hB, hParse]
  | some pp =>
    obtain ⟨hppne, hpp32⟩ := hp pp rfl
    have hE : encPfx (some pp) ++ encodeArgsBody (c :: args) =
        58 :: (pp ++ 32 :: encodeArgsBody (c :: args)) := by
      simp [encPfx, hppne]
    rw [hE]
    have h32m : 32 ∈ pp ++ 32 :: encodeArgsBody (c :: args) :=
      List.mem_append.mpr (Or.inr (List.mem_cons_self 32 _))
    simp only [if_pos rfl]
    rw [if_pos h32m]
    rw [takeWhile_app32 pp _ hpp32, dropWhile_app32 pp _ hpp32]
    simp only [List.tail_cons, if_true]
    rw [hParse]

/-- Shape of a successful decode: all parts except the last are plain
tokens, at most 15 parts come back, and a decoded prefix never contains
a space. -/
theorem split_shape (b : Bytes) (p : Option Bytes) (c : Bytes) (args : List Bytes)
    (h : split_irc_command b = some (p, c, args)) :
    plainInit (c :: args) ∧ (c :: args).length ≤ 15 ∧
      (∀ pp, p = some pp → 32 ∉ pp) := by
  rw [split_irc_command] at h
  split at h
  · exact absurd h (by simp)
  · split at h
    · exact absurd h (by simp)
    · next b0 bs hcore =>
      by_cases h58 : b0 = 58
      · by_cases h32m : 32 ∈ bs
        · simp only [h58, if_pos h32m, eq_self_iff_true, if_true] at h
          cases hpp : parseParts ((bs.dropWhile (fun x => x != 32)).tail.length + 1)
              ((bs.dropWhile (fun x => x != 32)).tail) [] with
          | none => rw [hpp] at h; exact absurd h (by simp)
          | some parts =>
            rw [hpp] at h
            cases parts with
            | nil => exact absurd h (by simp)
            | cons c' args' =>
              simp only [Option.some.injEq, Prod.mk.injEq] at h
              obtain ⟨hP, hC, hA⟩ := h
              subst hC; subst hA
              obtain ⟨news, hn, hpi⟩ := parseParts_sound _ _ _ _ hpp
              simp only [List.nil_append] at hn
              subst hn
              refine ⟨hpi, parseParts_count _ _ _ _ hpp (by simp), ?_⟩
              intro pp hppe
              rw [← hP] at hppe
              cases hppe
              exact mem_takeWhile_ne32
        · simp only [h58, if_neg h32m, eq_self_iff_true, if_true] at h
          cases hpp : parseParts ((b0 :: bs).length + 1) (b0 :: bs) [] with
          | none =>
            rw [h58] at hpp; rw [hpp] at h; exact absurd h (by simp)
          | some parts =>
            rw [h58] at hpp; rw [hpp] at h
            cases parts with
            | nil => exact absurd h (by simp)
            | cons c' args' =>
              simp only [Option.some.injEq, Prod.mk.injEq] at h
              obtain ⟨hP, hC, hA⟩ := h
              subst hC; subst hA
              obtain ⟨news, hn, hpi⟩ := parseParts_sound _ _ _ _ hpp
              simp only [List.nil_append] at hn
              subst hn
              refine ⟨hpi, parseParts_count _ _ _ _ hpp (by simp), ?_⟩
              intro pp hppe
              rw [← hP] at hppe
              cases hppe
              intro hmem
              exact h32m (List.mem_of_mem_dropLast hmem)
      · simp only [if_neg h58] at h
        cases hpp : parseParts ((b0 :: bs).length + 1) (b0 :: bs) [] with
        | none => rw [hpp] at h; exact absurd h (by simp)
        | some parts =>
          rw [hpp] at h
          cases parts with
          | nil => exact absurd h (by simp)
          | cons c' args' =>
            simp only [Option.some.injEq, Prod.mk.injEq] at h
            obtain ⟨hP, hC, hA⟩ := h
            subst hC; subst hA
            obtain ⟨news, hn, hpi⟩ := parseParts_sound _ _ _ _ hpp
            simp only [List.nil_append] at hn
            subst hn
            exact ⟨hpi, parseParts_count _ _ _ _ hpp (by simp),
              fun pp hppe => absurd (hP ▸ hppe) (by simp)⟩

/-- The encoder's argument loop agrees with the amended policy: the
positionally-last argument, when non-empty, is colon-marked exactly when
it contains a space. -/
theorem encodeArgs_eq_amended : ∀ (args : List Bytes), encodeArgs args = amendedArgs args := by
  intro args
  induction args with
  | nil => rfl
  | cons a rest ih =>
    cases rest with
    | nil => simp [encodeArgs, amendedArgs]
    | cons b t =>
      have h1 : amendedArgs (a :: b :: t) =
          (if a = [] then [] else 32 :: a) ++ amendedArgs (b :: t) := by
        rw [amendedArgs, amendedArgs,
          List.dropLast_cons_of_ne_nil (List.cons_ne_nil b t),
          List.map_cons, List.flatten_cons, List.getLast?_cons_cons,
          List.append_assoc]
      calc encodeArgs (a :: b :: t)
          = (if a = [] then [] else 32 :: a) ++ encodeArgs (b :: t) := rfl
        _ = (if a = [] then [] else 32 :: a) ++ amendedArgs (b :: t) := by rw [ih]
        _ = amendedArgs (a :: b :: t) := h1.symm

theorem encodeArgs_len (args : List Bytes) :
    (encodeArgs args).length ≤ (args.map (fun a => a.length + 2)).sum := by
  induction args with
  | nil => simp [encodeArgs]
  | cons a rest ih =>
    cases rest with
    | nil =>
      by_cases h : a = []
      · simp [encodeArgs, h]
      · by_cases h2 : 32 ∈ a <;> simp [encodeArgs, h, h2]
    | cons b t =>
      have he : encodeArgs (a :: b :: t) =
          (if a = [] then [] else 32 :: a) ++ encodeArgs (b :: t) := rfl
      simp only [List.map_cons, List.sum_cons] at ih ⊢
      by_cases h : a = []
      · rw [he, if_pos h]
        simp only [List.nil_append]
        omega
      · rw [he, if_neg h]
        simp only [List.length_append, List.length_cons]
        omega

/-!
## Claim theorems
-/

/-- C1 (counterexample): the frame `"CMD :\x0d\x0a"` decodes to command
`CMD` with one empty trailing parameter; re-encoding drops the empty
parameter, so decoding the re-encoded frame yields different params and
the round-trip does not preserve the decoded triple. -/
theorem C1_counterexample :
    split_irc_command (s2b "CMD :\r\n") = some (none, s2b "CMD", [[]]) ∧
    split_irc_command (make_irc_command (s2b "CMD") [[]] none) =
      some (none, s2b "CMD", []) ∧
    ([[]] : List Bytes) ≠ [] := by decide

/-- C1 (amended): for every byte buffer that decodes to
`(prefix, command, params)`, re-encoding and decoding again returns the
same triple, provided the decoded prefix is not the empty string, every
param is non-empty, the command is non-empty with no space and no
leading colon, any param in last position starting with a colon also
contains a space, and the re-encoded frame is at most 512 bytes. -/
theorem C1_roundtrip_amended (b : Bytes) (p : Option Bytes) (c : Bytes)
    (args : List Bytes)
    (hdec : split_irc_command b = some (p, c, args))
    (hpne : p ≠ some [])
    (hargs : ∀ a ∈ args, a ≠ [])
    (hcne : c ≠ [])
    (hc32 : 32 ∉ c)
    (hc58 : c.head? ≠ some 58)
    (hlast : ∀ l, args.getLast? = some l → l.head? = some 58 → 32 ∈ l)
    (hlen : (make_irc_command c args p).length ≤ 512) :
    split_irc_command (make_irc_command c args p) = some (p, c, args) := by
  obtain ⟨hpi, hcount, hp32⟩ := split_shape b p c args hdec
  refine split_make c args p ?_ ⟨hcne, hc32, hc58⟩ hargs
    (plainInit_of_cons hpi) hlast ?_ hlen
  · intro pp hppe
    exact ⟨fun he => hpne (by rw [hppe, he]), hp32 pp hppe⟩
  · simpa using hcount

theorem C1_roundtrip_amended_witness :
    split_irc_command (make_irc_command (s2b "PRIVMSG")
      [s2b "#t", s2b "hello world"] (some (s2b "alice!u@h"))) =
      some (some (s2b "alice!u@h"), s2b "PRIVMSG", [s2b "#t", s2b "hello world"]) :=
  C1_roundtrip_amended (s2b ":alice!u@h PRIVMSG #t :hello world\r\n")
    (some (s2b "alice!u@h")) (s2b "PRIVMSG") [s2b "#t", s2b "hello world"]
    (by decide) (by decide) (by decide) (by decide) (by decide) (by decide)
    (by
      intro l hl h58
      simp only [List.getLast?_cons_cons, List.getLast?_singleton,
        Option.some.injEq] at hl
      subst hl
      exact absurd h58 (by decide))
    (by decide)

/-- C5 (counterexample): with arguments `["a b", ""]` the code
colon-marks nothing (the positionally-last argument is empty), while the
claimed policy colon-marks the last non-empty argument `"a b"`. -/
theorem C5_counterexample :
    make_irc_command (s2b "C") [s2b "a b", []] none = s2b "C a b\r\n" ∧
    make_irc_command_claim (s2b "C") [s2b "a b", []] none = s2b "C :a b\r\n" ∧
    make_irc_command (s2b "C") [s2b "a b", []] none ≠
      make_irc_command_claim (s2b "C") [s2b "a b", []] none := by decide

/-- C5 (amended): the encoder emits the prefix when non-empty, then the
command, then each non-empty argument preceded by one space, with the
positionally-last argument, when non-empty, given a leading colon
exactly when it contains a space, then CRLF; and the two concrete
examples from the claim hold. -/
theorem C5_encoder_amended :
    (∀ (cmd : Bytes) (args : List Bytes) (pre : Option Bytes),
      make_irc_command cmd args pre = make_irc_command_amended cmd args pre) ∧
    make_irc_command (s2b "PRIVMSG") [s2b "#t", s2b "hello world"] none =
      s2b "PRIVMSG #t :hello world\r\n" ∧
    make_irc_command (s2b "PRIVMSG") [s2b "#t", s2b "hi"] none =
      s2b "PRIVMSG #t hi\r\n" := by
  refine ⟨?_, by decide, by decide⟩
  intro cmd args pre
  rw [make_irc_command_amended, ← encodeArgs_eq_amended]
  cases pre with
  | none => rfl
  | some pp => rfl

/-- C6: any byte sequence that does not end in CRLF, or is shorter than
3 bytes, or longer than 512 bytes, fails to decode. -/
theorem C6_decode_failure (b : Bytes)
    (h : ¬ [13, 10] <:+ b ∨ b.length < 3 ∨ 512 < b.length) :
    split_irc_command b = none := by
  have hcond : b.length < 3 ∨ 512 < b.length ∨
      b.drop (b.length - 2) ≠ [13, 10] := by
    rcases h with h | h | h
    · right; right
      intro hd
      exact h ⟨b.take (b.length - 2), by rw [← hd, List.take_append_drop]⟩
    · left; exact h
    · right; left; exact h
  rw [split_irc_command, if_pos hcond]

theorem C6_decode_failure_witness :
    split_irc_command [13, 10] = none ∧
    split_irc_command (s2b "NICK alice") = none :=
  ⟨C6_decode_failure [13, 10] (Or.inr (Or.inl (by decide))),
   C6_decode_failure (s2b "NICK alice") (Or.inl (by decide))⟩

/-- C9: once the nick-chosen gate is set, the client adapter sends
exactly three frames, in order NICK, USER, JOIN, each of which decodes
to the corresponding command with the configured nick and channel. -/
theorem C9_login_handshake (nick channel : Bytes)
    (hn : nick ≠ []) (hn32 : 32 ∉ nick) (hn58 : nick.head? ≠ some 58)
    (hch : channel ≠ []) (hch58 : channel.head? ≠ some 58)
    (hnlen : nick.length ≤ 200) (hchlen : channel.length ≤ 200) :
    (wait_login_sends nick channel).map split_irc_command =
      [some (none, s2b "NICK", [nick]),
       some (none, s2b "USER", [nick, s2b "0", s2b "*", nick]),
       some (none, s2b "JOIN", [channel])] := by
  have hlast1 : ∀ l, [nick].getLast? = some l → l.head? = some 58 → 32 ∈ l := by
    intro l hl h58
    rw [List.getLast?_singleton, Option.some.injEq] at hl
    subst hl
    exact absurd h58 hn58
  have hlastch : ∀ l, [channel].getLast? = some l → l.head? = some 58 → 32 ∈ l := by
    intro l hl h58
    rw [List.getLast?_singleton, Option.some.injEq] at hl
    subst hl
    exact absurd h58 hch58
  have hlast4 : ∀ l, [nick, s2b "0", s2b "*", nick].getLast? = some l →
      l.head? = some 58 → 32 ∈ l := by
    intro l hl h58
    simp only [List.getLast?_cons_cons, List.getLast?_singleton,
      Option.some.injEq] at hl
    subst hl
    exact absurd h58 hn58
  have hsNICK : (s2b "NICK").length = 4 := by decide
  have hsUSER : (s2b "USER").length = 4 := by decide
  have hsJOIN : (s2b "JOIN").length = 4 := by decide
  have hs0 : (s2b "0").length = 1 := by decide
  have hsStar : (s2b "*").length = 1 := by decide
  have hb1 : (make_irc_command (s2b "NICK") [nick] none).length ≤ 512 := by
    have h1 := encodeArgs_len [nick]
    simp only [List.map_cons, List.map_nil, List.sum_cons, List.sum_nil] at h1
    simp only [make_irc_command, List.length_append, List.length_cons,
      List.length_nil, hsNICK]
    omega
  have hb2 : (make_irc_command (s2b "USER")
      [nick, s2b "0", s2b "*", nick] none).length ≤ 512 := by
    have h1 := encodeArgs_len [nick, s2b "0", s2b "*", nick]
    simp only [List.map_cons, List.map_nil, List.sum_cons, List.sum_nil,
      hs0, hsStar] at h1
    simp only [make_irc_command, List.length_append, List.length_cons,
      List.length_nil, hsUSER]
    omega
  have hb3 : (make_irc_command (s2b "JOIN") [channel] none).length ≤ 512 := by
    have h1 := encodeArgs_len [channel]
    simp only [List.map_cons, List.map_nil, List.sum_cons, List.sum_nil] at h1
    simp only [make_irc_command, List.length_append, List.length_cons,
      List.length_nil, hsJOIN]
    omega
  have e1 := split_make (s2b "NICK") [nick] none (by intro pp h; cases h)
    ⟨by decide, by decide, by decide⟩
    (by intro a ha; rw [List.mem_singleton] at ha; exact ha ▸ hn)
    trivial hlast1 (by simp only [List.length_singleton]; omega) hb1
  have e2 := split_make (s2b "USER") [nick, s2b "0", s2b "*", nick] none
    (by intro pp h; cases h)
    ⟨by decide, by decide, by decide⟩
    (by
      intro a ha
      simp only [List.mem_cons, List.mem_singleton] at ha
      rcases ha with h | h | h | h | h
      · exact h ▸ hn
      · exact h ▸ (by decide)
      · exact h ▸ (by decide)
      · exact h ▸ hn
      · exact absurd h (List.not_mem_nil a))
    (by
      refine plainInit_cons ⟨hn, hn32, hn58⟩ ?_
      refine plainInit_cons (by refine ⟨by decide, by decide, by decide⟩) ?_
      refine plainInit_cons (by refine ⟨by decide, by decide, by decide⟩) ?_
      trivial)
    hlast4 (by simp only [List.length_cons, List.length_nil]; omega) hb2
  have e3 := split_make (s2b "JOIN") [channel] none (by intro pp h; cases h)
    ⟨by decide, by decide, by decide⟩
    (by intro a ha; rw [List.mem_singleton] at ha; exact ha ▸ hch)
    trivial hlastch (by simp only [List.length_singleton]; omega) hb3
  simp only [wait_login_sends, List.map_cons, List.map_nil, e1, e2, e3]

theorem C9_login_handshake_witness :
    (wait_login_sends (s2b "alice") (s2b "#t")).map split_irc_command =
      [some (none, s2b "NICK", [s2b "alice"]),
       some (none, s2b "USER", [s2b "alice", s2b "0", s2b "*", s2b "alice"]),
       some (none, s2b "JOIN", [s2b "#t"])] :=
  C9_login_handshake (s2b "alice") (s2b "#t") (by decide) (by decide)
    (by decide) (by decide) (by decide) (by decide) (by decide)

/-!
## Server lemmas and claims
-/

theorem lookupA_mem [DecidableEq κ] {k : κ} {v : α} :
    ∀ {l : List (κ × α)}, lookupA k l = some v → (k, v) ∈ l := by
  intro l
  induction l with
  | nil => intro h; exact absurd h (by simp [lookupA])
  | cons kv t ih =>
    intro h
    rw [lookupA] at h
    split at h
    · next heq =>
      rw [Option.some.injEq] at h
      subst h
      exact heq ▸ List.mem_cons_self kv t
    · exact List.mem_cons_of_mem kv (ih h)

theorem mem_insertA [DecidableEq κ] {k : κ} {v : α} {x : κ × α} :
    ∀ {l : List (κ × α)}, x ∈ insertA k v l → x = (k, v) ∨ x ∈ l := by
  intro l
  induction l with
  | nil => intro h; simp [insertA] at h; exact Or.inl h
  | cons kv t ih =>
    intro h
    rw [insertA] at h
    split at h
    · rcases List.mem_cons.mp h with h | h
      · exact Or.inl h
      · exact Or.inr (List.mem_cons_of_mem kv h)
    · rcases List.mem_cons.mp h with h | h
      · exact Or.inr (h ▸ List.mem_cons_self kv t)
      · rcases ih h with h | h
        · exact Or.inl h
        · exact Or.inr (List.mem_cons_of_mem kv h)

theorem chAddUser_topic (ch : IRCChannelSt) (sid : SessionId) :
    (chAddUser ch sid).topic = ch.topic := by
  rw [chAddUser]
  split <;> rfl

theorem joinStep_topics (st : IRCServerSt) (sid : SessionId) (u : IRCUserSt)
    (n : Bytes) (h : ∀ nc ∈ st.channels, nc.2.topic = ([] : Bytes)) :
    ∀ nc ∈ (joinStep st sid u n).1.channels, nc.2.topic = ([] : Bytes) := by
  intro nc hm
  simp only [joinStep] at hm
  have h0 : ∀ nc ∈ (if memA n st.channels then st.channels
      else insertA n initChannel st.channels), nc.2.topic = ([] : Bytes) := by
    intro nc hm
    split at hm
    · exact h nc hm
    · rcases mem_insertA hm with he | he
      · rw [he]; rfl
      · exact h nc he
  rcases mem_insertA hm with he | he
  · rw [he]
    rw [chAddUser_topic]
    cases hlk : lookupA n (if memA n st.channels then st.channels
        else insertA n initChannel st.channels) with
    | none => rfl
    | some ch =>
      exact h0 (n, ch) (lookupA_mem hlk)
  · exact h0 nc he

theorem joinAll_topics (names : List Bytes) :
    ∀ (st : IRCServerSt) (sid : SessionId) (u : IRCUserSt),
      (∀ nc ∈ st.channels, nc.2.topic = ([] : Bytes)) →
      ∀ nc ∈ (joinAll st sid u names).1.channels, nc.2.topic = ([] : Bytes) := by
  induction names with
  | nil => intro st sid u h; exact h
  | cons n ns ih =>
    intro st sid u h
    exact ih _ sid u (joinStep_topics st sid u n h)

theorem privmsgStep_state (st : IRCServerSt) (sid : SessionId) (u : IRCUserSt)
    (target text : Bytes) : (privmsgStep st sid u target text).state = st := by
  cases target with
  | nil => rfl
  | cons hd tl =>
    simp only [privmsgStep]
    by_cases hh : hd = 35 ∨ hd = 38 ∨ hd = 43
    · rw [if_pos hh]
      cases lookupA (hd :: tl) st.channels <;> rfl
    · rw [if_neg hh]
      by_cases hm : memA (hd :: tl) st.users = true
      · rw [if_pos hm]
        rfl
      · rw [if_neg hm]
        rfl

/-- No branch of the command dispatch writes to a channel's topic. -/
theorem handle_command_topics (st : IRCServerSt) (sid : SessionId)
    (pre : Option Bytes) (cmd : Bytes) (parts : List Bytes)
    (h : ∀ nc ∈ st.channels, nc.2.topic = ([] : Bytes)) :
    ∀ nc ∈ (handle_command st sid pre cmd parts).state.channels,
      nc.2.topic = ([] : Bytes) := by
  cases hlk : lookupA sid st.sessions with
  | none =>
    simp only [handle_command, hlk]
    exact h
  | some u =>
    simp only [handle_command, hlk]
    by_cases hpre : pyTruthy pre = true
    · rw [if_pos hpre]; exact h
    · rw [if_neg hpre]
      by_cases h1 : asciiUpper cmd = s2b "NICK"
      · rw [if_pos h1]
        cases parts with
        | nil => exact h
        | cons p0 pr => exact h
      · rw [if_neg h1]
        by_cases h2 : asciiUpper cmd = s2b "USER"
        · rw [if_pos h2]
          by_cases hreg : u.registered = true
          · rw [if_pos hreg]; exact h
          · rw [if_neg hreg]
            by_cases hlen : parts.length < 4
            · rw [if_pos hlen]; exact h
            · rw [if_neg hlen]
              cases parts with
              | nil => exact h
              | cons p0 t1 =>
                cases t1 with
                | nil => exact h
                | cons p1 t2 =>
                  cases t2 with
                  | nil => exact h
                  | cons p2 t3 =>
                    cases t3 with
                    | nil => exact h
                    | cons p3 t4 => exact h
        · rw [if_neg h2]
          by_cases h3 : asciiUpper cmd = s2b "QUIT"
          · rw [if_pos h3]; exact h
          · rw [if_neg h3]
            by_cases h4 : asciiUpper cmd = s2b "JOIN"
            · rw [if_pos h4]
              cases parts with
              | nil => exact h
              | cons p0 pr =>
                show ∀ nc ∈ ((if p0 = s2b "0" then
                    if st.channels = [] then StepResult.ok st []
                    else StepResult.err st []
                  else
                    StepResult.ok (joinAll st sid u (p0.splitOn 44)).1
                      (joinAll st sid u (p0.splitOn 44)).2).state.channels),
                  nc.2.topic = ([] : Bytes)
                by_cases h0 : p0 = s2b "0"
                · rw [if_pos h0]
                  by_cases hch : st.channels = []
                  · rw [if_pos hch]; exact h
                  · rw [if_neg hch]; exact h
                · rw [if_neg h0]
                  exact joinAll_topics _ st sid u h
            · rw [if_neg h4]
              by_cases h5 : asciiUpper cmd = s2b "PART"
              · rw [if_pos h5]
                cases parts with
                | nil => exact h
                | cons p0 pr => exact h
              · rw [if_neg h5]
                by_cases h6 : asciiUpper cmd = s2b "LIST"
                · rw [if_pos h6]; exact h
                · rw [if_neg h6]
                  by_cases h7 : asciiUpper cmd = s2b "PRIVMSG"
                  · rw [if_pos h7]
                    cases parts with
                    | nil => exact h
                    | cons p0 t1 =>
                      cases t1 with
                      | nil => exact h
                      | cons p1 t2 =>
                        show ∀ nc ∈ (privmsgStep st sid u p0 p1).state.channels,
                          nc.2.topic = ([] : Bytes)
                        rw [privmsgStep_state]
                        exact h
                  · rw [if_neg h7]; exact h

theorem stepEvent_topics (st : IRCServerSt) (e : ServerEvent)
    (h : ∀ nc ∈ st.channels, nc.2.topic = ([] : Bytes)) :
    ∀ nc ∈ (stepEvent st e).channels, nc.2.topic = ([] : Bytes) := by
  cases e with
  | connect sid address => exact h
  | frame sid pre cmd parts => exact handle_command_topics st sid pre cmd parts h

theorem foldl_topics (evs : List ServerEvent) :
    ∀ (st : IRCServerSt), (∀ nc ∈ st.channels, nc.2.topic = ([] : Bytes)) →
      ∀ nc ∈ (evs.foldl stepEvent st).channels, nc.2.topic = ([] : Bytes) := by
  induction evs with
  | nil => intro st h; exact h
  | cons e t ih =>
    intro st h
    exact ih (stepEvent st e) (stepEvent_topics st e h)

/-- C7: a USER command on an already-registered session yields exactly
one ALREADYREGISTRED reply to that session and leaves the entire server
state (session fields, directories, channels) unchanged. -/
theorem C7_user_already_registered (st : IRCServerSt) (sid : SessionId)
    (u : IRCUserSt) (pre : Option Bytes) (parts : List Bytes)
    (hu : lookupA sid st.sessions = some u)
    (hreg : u.registered = true)
    (hpre : pyTruthy pre = false) :
    handle_command st sid pre (s2b "USER") parts =
      .ok st [.send sid (replyFrame u .ALREADYREGISTRED [])] := by
  simp only [handle_command, hu, hpre, Bool.false_eq_true, if_false]
  rw [if_neg (by decide : ¬(asciiUpper (s2b "USER") = s2b "NICK"))]
  rw [if_pos (by decide : asciiUpper (s2b "USER") = s2b "USER")]
  rw [hreg]
  simp

theorem C7_user_already_registered_witness :
    handle_command
      { channels := [], nicks := [(s2b "alice", 0)],
        users := [(s2b "alice", s2b "alice")],
        sessions := [(0, ⟨true, some (s2b "alice"), some (s2b "alice"),
          some (s2b "Alice"), 0, s2b "1.1.1.1", s2b "127.0.0.1"⟩)] }
      0 none (s2b "USER") [s2b "x", s2b "0", s2b "*", s2b "y"] =
      .ok
        { channels := [], nicks := [(s2b "alice", 0)],
          users := [(s2b "alice", s2b "alice")],
          sessions := [(0, ⟨true, some (s2b "alice"), some (s2b "alice"),
            some (s2b "Alice"), 0, s2b "1.1.1.1", s2b "127.0.0.1"⟩)] }
        [.send 0 (replyFrame
          ⟨true, some (s2b "alice"), some (s2b "alice"), some (s2b "Alice"),
            0, s2b "1.1.1.1", s2b "127.0.0.1"⟩
          .ALREADYREGISTRED [])] :=
  C7_user_already_registered _ 0 _ none [s2b "x", s2b "0", s2b "*", s2b "y"]
    rfl rfl rfl

/-- C2 (code bug): with both alice and bob registered, bob's username is
a key of the registered-user directory, yet a PRIVMSG from alice to bob
raises (`self._users[target]` is the string `"bob"`, which has no
`send`), so no frame is delivered and alice's connection loop dies; the
NOSUCHNICK half for an absent target does hold. -/
theorem C2_privmsg_user_directory_bug :
    (let st := runServer [ServerEvent.connect 0 (s2b "1.1.1.1"),
       ServerEvent.connect 1 (s2b "2.2.2.2"),
       ServerEvent.frame 0 none (s2b "NICK") [s2b "alice"],
       ServerEvent.frame 0 none (s2b "USER")
         [s2b "alice", s2b "0", s2b "*", s2b "Alice"],
       ServerEvent.frame 1 none (s2b "NICK") [s2b "bob"],
       ServerEvent.frame 1 none (s2b "USER")
         [s2b "bob", s2b "0", s2b "*", s2b "Bob"]]
     memA (s2b "bob") st.users = true ∧
     handle_command st 0 none (s2b "PRIVMSG") [s2b "bob", s2b "hi"] =
       .err st [] ∧
     handle_command st 0 none (s2b "PRIVMSG") [s2b "carol", s2b "hi"] =
       .ok st [.send 0 (replyFrame
         { registered := true, nick := some (s2b "alice"),
           username := some (s2b "alice"), realname := some (s2b "Alice"),
           mode := 0, address := s2b "1.1.1.1",
           server := s2b "127.0.0.1" } .NOSUCHNICK [s2b "carol"])]) := by
  decide

/-- C3 (code bug): `IRCServer` has no `_quit` method, so QUIT raises
`AttributeError` before touching any state: the session stays in the
channel member set and the nick directory, nothing is sent, and the
connection is torn down by the exception handler instead of a clean
close. -/
theorem C3_quit_missing_method :
    (let st := runServer [ServerEvent.connect 0 (s2b "9.9.9.9"),
       ServerEvent.frame 0 none (s2b "NICK") [s2b "alice"],
       ServerEvent.frame 0 none (s2b "JOIN") [s2b "#t"]]
     handle_command st 0 none (s2b "QUIT") [] = .err st [] ∧
     (lookupA (s2b "#t") st.channels).map IRCChannelSt.users = some [0] ∧
     memA (s2b "alice") st.nicks = true) := by
  decide

/-- C4 (code bug): `IRCServer` has no `_part` method, so PART with a
parameter raises `AttributeError` and removes nothing — after JOIN #t,
PART #t leaves the membership set unchanged; only the
missing-parameter half of the claim (NEEDMOREPARAMS, no state change)
holds. -/
theorem C4_part_missing_method :
    (let st := runServer [ServerEvent.connect 0 (s2b "9.9.9.9"),
       ServerEvent.frame 0 none (s2b "NICK") [s2b "alice"],
       ServerEvent.frame 0 none (s2b "JOIN") [s2b "#t"]]
     handle_command st 0 none (s2b "PART") [s2b "#t"] = .err st [] ∧
     (lookupA (s2b "#t") st.channels).map IRCChannelSt.users = some [0] ∧
     handle_command st 0 none (s2b "PART") [] =
       .ok st [.send 0 (replyFrame
         { registered := false, nick := some (s2b "alice"), username := none,
           realname := none, mode := 0, address := s2b "9.9.9.9",
           server := s2b "127.0.0.1" } .NEEDMOREPARAMS [s2b "PART"])]) := by
  decide

/-- C10: over every sequence of connections and decoded frames processed
by the server from its initial state, every channel's topic is the empty
string — no dispatch branch ever mutates a topic. -/
theorem C10_topic_always_empty : ∀ (evs : List ServerEvent),
    ∀ nc ∈ (runServer evs).channels, nc.2.topic = ([] : Bytes) := by
  intro evs
  exact foldl_topics evs initServer
    (by intro nc hm; exact absurd hm (List.not_mem_nil nc))

theorem C10_topic_always_empty_witness :
    ((s2b "#t", ({ users := [0], topic := [] } : IRCChannelSt)) :
      Bytes × IRCChannelSt).2.topic = ([] : Bytes) :=
  C10_topic_always_empty
    [ServerEvent.connect 0 (s2b "9.9.9.9"),
     ServerEvent.frame 0 none (s2b "JOIN") [s2b "#t"]]
    (s2b "#t", { users := [0], topic := [] }) (by decide)
